import Mathlib

/-!
Verification of `src/combinatorics.js` (js-combinatorics, version 0.6.1).

The JavaScript source is shallowly embedded: the numeric core works on
`BigInt` (arbitrary-precision integers), which we model as `Nat`; the
`Number`-vs-`BigInt` downcast rule (`p <= Number.MAX_SAFE_INTEGER ? Number(p) : p`)
is modelled by the tagged type `JSInt`.  Ranks are non-negative integers;
functions whose JS code checks `n < 0` take an `Int` rank, the others a `Nat`.
JS methods that `throw RangeError` are modelled with `Except String`.
-/

namespace JsComb

/-- `Number.MAX_SAFE_INTEGER` = 2^53 - 1. -/
def maxSafeInteger : Nat := 2 ^ 53 - 1

/-- A JS integer: either a bounded `Number` (holding an exact integer) or a
`BigInt`.  Both constructors carry the exact mathematical value. -/
inductive JSInt where
  | num : Nat → JSInt
  | big : Nat → JSInt
  deriving DecidableEq, Repr

/-- The downcast rule `v <= Number.MAX_SAFE_INTEGER ? Number(v) : v`.
For `v ≤ 2^53 - 1` the conversion `Number(v)` is exact. -/
def downcast (v : Nat) : JSInt :=
  if v ≤ maxSafeInteger then .num v else .big v

/-- The mathematical value held by a `JSInt`. -/
def JSInt.val : JSInt → Nat
  | .num v => v
  | .big v => v

/-- The loop `while (k--) p *= n--;` of `permutation(n, k)`.
In JS, `n` runs over `n, n-1, n-2, …` as a `BigInt`; once the factor `0` is
reached the product is pinned at `0`, so truncated `Nat` subtraction (which
then keeps multiplying by `0` instead of by negative numbers) yields the same
value for all `n, k ≥ 0`. -/
def permLoop : Nat → Nat → Nat → Nat
  | _, 0, p => p
  | n, k + 1, p => permLoop (n - 1) k (p * n)

/-- Value computed by `permutation(n, k)`: `n·(n-1)·…·(n-k+1)`. -/
def permutationVal (n k : Nat) : Nat := permLoop n k 1

/-- `export function permutation(n, k)` with its downcast of the result. -/
def permutation (n k : Nat) : JSInt := downcast (permutationVal n k)

/-- `export function factorial(n) { return permutation(n, n); }` (value level). -/
def factorial (n : Nat) : Nat := permutationVal n n

/-- JS `/` as applied in `combination(n, k)` to the two (already downcast)
results of `permutation`: `BigInt / BigInt` is truncating integer division;
`Number / Number` is IEEE double division, which at this call site returns
the exact integer quotient (the divisor divides the dividend for `k ≤ n`,
and the dividend is `0` for `k > n`; both operands and the quotient are at
most `2^53`, hence exactly representable, so the rounding is the identity);
mixing a `BigInt` with a `Number` throws `TypeError`. -/
def jsDiv : JSInt → JSInt → Except String Nat
  | .num a, .num b => .ok (a / b)
  | .big a, .big b => .ok (a / b)
  | _, _ => .error "TypeError: cannot mix BigInt and other types"

/-- Value of `P(n,k) / P(k,k)` on the two non-throwing paths of
`combination` (on both of them the division is exact `Nat` division); it is
also what a `Combination` object stores in its `length` field. -/
def combinationVal (n k : Nat) : Nat := permutationVal n k / permutationVal k k

/-- `export function combination(n, k)`:
`const c = _BI(P(n, k) / P(k, k))` divides the *downcast* permutation
results, so it throws `TypeError` when exactly one of them exceeds
`Number.MAX_SAFE_INTEGER`; otherwise the quotient is downcast again. -/
def combination (n k : Nat) : Except String JSInt :=
  (jsDiv (permutation n k) (permutation k k)).map downcast

/-! ## factoradic

The JS code threads a variable `bf` through both loops of `factoradic`; it
always holds the factorial of the current `l` (`bf = l!`), so the embedding
tracks only `l` and writes `Nat.factorial l` for `bf` (the repository's
`factorial` computes the same value, see `factorial_eq` below). -/

/-- The width-finding loop `for (l = 1; bf < bn; bf *= _BI(++l));` of
`factoradic` (it starts with `l = 1`, `bf = 1 = 1!` and multiplies `bf`
by `l` after incrementing `l`, keeping `bf = l!`). -/
def faclen (bn l : Nat) : Nat :=
  if h : Nat.factorial l < bn then faclen bn (l + 1) else l
termination_by bn - l
decreasing_by
  have h1 := Nat.self_le_factorial l
  omega

/-- The digit count chosen by `factoradic` when `l` is not given:
after the width loop, `if (bn < bf) bf /= _BI(l--);`. -/
def factoradicLen (bn : Nat) : Nat :=
  let l := faclen bn 1
  if bn < Nat.factorial l then l - 1 else l

/-- The digit loop
`for (; l; bf /= _BI(l--)) { digits[l] = Math.floor(Number(bn / bf)); bn %= bf; }`
starting from `digits = [0]` and `bf = l!`, with the stored digit taken as
the *exact* `BigInt` quotient `bn / bf`: this is the JS behaviour whenever
that quotient is at most `2^53`, since there `Math.floor(Number(q)) = q`.
For larger quotients the JS store rounds through a double; `facDigitsGoJS`
below models that store bit-exactly and `facDigitsGoJS_eq_of_le` proves the
two agree for values up to `2^53`.  `Permutation.nth` reads only digits
below the top position, which are bounded by their position index
(`facDigitsGo_getD_le`), hence by the seed's array length (`< 2^32` for any
JS array), so this exact form is the right model for the `nth` chain.
The returned list has the digit written at index `i` of the JS array at
position `i` (index `0` stays `0`). -/
def facDigitsGo : Nat → Nat → List Nat
  | 0, _ => [0]
  | l + 1, bn => facDigitsGo l (bn % Nat.factorial (l + 1)) ++ [bn / Nat.factorial (l + 1)]

/-- `Number(x)` for a non-negative integer (`BigInt`) `x`: round to the
nearest IEEE double, ties to even.  Exact for `x ≤ 2^53`; above that, `x`
is rounded at the double spacing `2^(log2 x - 52)`.  `Math.floor` is the
identity on these results, every double `≥ 2^53` being an integer.
(Values `≥ 2^1024` overflow to `Infinity`; not modelled — every statement
below stays far under.) -/
def jsNumber (x : Nat) : Nat :=
  if x ≤ 2 ^ 53 then x
  else
    let e := Nat.log2 x - 52
    let q := x / 2 ^ e
    let r := x % 2 ^ e
    let half := 2 ^ (e - 1)
    if r < half then q * 2 ^ e
    else if half < r then (q + 1) * 2 ^ e
    else if q % 2 = 0 then q * 2 ^ e else (q + 1) * 2 ^ e

/-- The digit loop with the store `Math.floor(Number(bn / bf))` modelled
bit-exactly via `jsNumber` (the running remainder `bn %= bf` stays an exact
`BigInt`; only the stored digit is rounded). -/
def facDigitsGoJS : Nat → Nat → List Nat
  | 0, _ => [0]
  | l + 1, bn =>
    facDigitsGoJS l (bn % Nat.factorial (l + 1)) ++ [jsNumber (bn / Nat.factorial (l + 1))]

/-- `export function factoradic(n, l = 0)` (`l = 0` is falsy in JS and
selects the minimal-width branch), with the exact digit store — the
factoradic conversion as `Permutation.nth` consumes it (all digits it reads
are below `2^53`, see `facDigitsGo` above). -/
def factoradic (n : Nat) (l : Nat) : List Nat :=
  if l = 0 then facDigitsGo (factoradicLen n) n else facDigitsGo l n

/-- `export function factoradic(n, l = 0)` with the rounding digit store:
the bit-exact model of the exported function at arbitrary magnitudes; it
agrees with `factoradic` for values up to `2^53` (`factoradicJS_eq_of_le`)
and diverges above (`factoradic_counterexample`). -/
def factoradicJS (n : Nat) (l : Nat) : List Nat :=
  if l = 0 then facDigitsGoJS (factoradicLen n) n else facDigitsGoJS l n

/-- The value denoted by a factoradic digit list: `Σ_i d[i] · i!`
(used to state what the digits represent). -/
def facValue (ds : List Nat) : Nat :=
  ((List.range ds.length).map (fun i => ds.getD i 0 * Nat.factorial i)).sum

/-! ## Permutation -/

/-- The state held by a constructed `Permutation` object. -/
structure Permutation (α : Type u) where
  seed : List α
  size : Nat
  length : Nat
  deriving Repr

/-- `new Permutation(seed, size = 0)`:
`this.seed = [...seed]` (a copy), `this.size = 0 < size && size <= this.seed.length
? size : this.seed.length`, `this.length = permutation(seed.length, this.size)`.
With `BigInt` available (`_BI !== Number`) the `MAX_SAFE_INTEGER` guard never
throws, so construction is total. -/
def Permutation.make (seed : List α) (size : Int) : Permutation α :=
  let sz := if 0 < size ∧ size ≤ (seed.length : Int) then size.toNat else seed.length
  { seed := seed, size := sz, length := permutationVal seed.length sz }

/-- The loop of `Permutation.nth`:
`for (let i = N - 1; offset <= i; i--) result.push(source.splice(digits[i], 1)[0]);`
`splice(d, 1)[0]` removes and returns the element at index `d`; we split it
into `getD` + `eraseIdx` (the digit is always in range, see
`facDigitsGo_getD_le` below). The loop runs `N - offset` times with `i`
descending from `N - 1`. -/
def permPick [Inhabited α] (digits : List Nat) : List α → Nat → Nat → List α
  | _, _, 0 => []
  | source, i, steps + 1 =>
    source.getD (digits.getD i 0) default ::
      permPick digits (source.eraseIdx (digits.getD i 0)) (i - 1) steps

/-- `Permutation.nth(n)` — note: no range check is performed. -/
def Permutation.nth [Inhabited α] (p : Permutation α) (n : Nat) : List α :=
  let offset := p.seed.length - p.size
  let skip := factorial offset
  let digits := factoradic (n * skip) p.seed.length
  permPick digits p.seed (p.seed.length - 1) (p.seed.length - offset)

/-! ## Combination -/

/-- Models the `BigInt` expression `p & -p` (the lowest set bit of `p`).
`BigInt` bitwise operations use infinite two's complement, where
`-p = ~(p - 1)`, so `p & -p = p & ~(p - 1) = p & (p ^ (p - 1))` for `p > 0`
(the bits of `p` and `p - 1` agree above the lowest set bit and the `xor`
keeps exactly the low run); for `p = 0` both give `0`. -/
def lowBit (p : Nat) : Nat :=
  p &&& (p ^^^ (p - 1))

/-- `findIndex` inside `Combination.nth`: the bit-manipulation remap from a
combination rank to a permutation rank. -/
def findIndex (n : Nat) : Nat :=
  if n ≤ 2 then n
  else
    let p := n - 1
    let s := lowBit p
    let r := p + s
    let t := lowBit r
    let m := t / s / 2 - 1
    r ||| m

/-- The state held by a constructed `Combination` object. -/
structure Combination (α : Type u) where
  perm : Permutation α
  size : Nat
  length : Nat
  deriving Repr

/-- `new Combination(seed, size = 0)`: builds `new Permutation([...seed], size)`
and `this.length = combination(seed.length, this.size)`. -/
def Combination.make (seed : List α) (size : Int) : Combination α :=
  let perm := Permutation.make seed size
  { perm := perm, size := perm.size, length := combinationVal seed.length perm.size }

/-- `Combination.nth(n) = this.perm.nth(findIndex(n))` — no range check. -/
def Combination.nth [Inhabited α] (c : Combination α) (n : Nat) : List α :=
  c.perm.nth (findIndex n)

/-! ## BaseN -/

/-- The state held by a constructed `BaseN` object. -/
structure BaseN (α : Type u) where
  seed : List α
  size : Nat
  base : Nat
  length : Nat
  deriving Repr

/-- `new BaseN(seed, size)` on the successful path (`size ≥ 1`):
`this.seed = [...seed]` (a copy), `base = seed.length`, and
`length = Array(size).fill(_BI(base)).reduce((a,v) => a*v) = base^size`.
The constructor's two throwing paths are modelled by `BaseN.makeChecked`. -/
def BaseN.make (seed : List α) (size : Nat) : BaseN α :=
  { seed := seed, size := size, base := seed.length, length := seed.length ^ size }

/-- The digit loop of `BaseN.nth`: `d = n % base; result.push(seed[d]); n /= base`. -/
def baseNGo [Inhabited α] (seed : List α) (base : Nat) : Nat → Nat → List α
  | _, 0 => []
  | n, steps + 1 => seed.getD (n % base) default :: baseNGo seed base (n / base) steps

/-- `BaseN.nth(n)`, including its two `RangeError` checks. -/
def BaseN.nth [Inhabited α] (b : BaseN α) (n : Int) : Except String (List α) :=
  if n < 0 then .error "too small"
  else if (b.length : Int) ≤ n then .error "too large"
  else .ok (baseNGo b.seed b.base n.toNat b.size)

/-! ## PowerSet

`new PowerSet(seed)` stores the caller's sequence itself: `this.seed = seed`
(no copy, unlike the other four classes).  `this.length` is computed at
construction from the array contents at that time; `nth` later reads the
elements through the stored reference, i.e. the caller's array as currently
mutated.  We therefore model `nth` observationally with two lists: `orig`
(contents at construction) and `now` (contents when `nth` is called). -/

/-- The bit loop of `PowerSet.nth`:
`for (let i = 0; n; n >>= one, i++) if (n & one) result.push(this.seed[i]);`. -/
def powGo [Inhabited α] (seed : List α) (n i : Nat) : List α :=
  if n = 0 then []
  else if n % 2 = 1 then seed.getD i default :: powGo seed (n / 2) (i + 1)
  else powGo seed (n / 2) (i + 1)
termination_by n
decreasing_by
  all_goals exact Nat.div_lt_self (by omega) (by omega)

/-- `length = 1n << BigInt(this.seed.length)` computed at construction. -/
def PowerSet.length (seed : List α) : Nat := 2 ^ seed.length

/-- `PowerSet.nth(n)` observed after the caller's array changed from `orig`
(at construction) to `now` (at the call): the length bound is the snapshot,
the element reads go through the stored reference. -/
def PowerSet.nthAfter [Inhabited α] (orig now : List α) (n : Int) : Except String (List α) :=
  if n < 0 then .error "too small"
  else if (PowerSet.length orig : Int) ≤ n then .error "too large"
  else .ok (powGo now n.toNat 0)

/-- `PowerSet.nth(n)` when the caller has not mutated the array. -/
def PowerSet.nth [Inhabited α] (seed : List α) (n : Int) : Except String (List α) :=
  PowerSet.nthAfter seed seed n

/-! ## CartesianProduct -/

/-- The loop of `CartesianProduct.nth`: for each factor in input order,
`d = n % seed[i].length; result.push(seed[i][d]); n /= seed[i].length`. -/
def cartGo [Inhabited α] : List (List α) → Nat → List α
  | [], _ => []
  | s :: rest, n => s.getD (n % s.length) default :: cartGo rest (n / s.length)

/-- `new CartesianProduct(...args)`: `this.seed = args.map(v => [...v])` (copies);
`length = seed.reduce((a, v) => a * BigInt(v.length), 1n)`. -/
def CartesianProduct.length (seeds : List (List α)) : Nat :=
  seeds.foldl (fun a v => a * v.length) 1

/-- `CartesianProduct.nth(n)`, including its two `RangeError` checks. -/
def CartesianProduct.nth [Inhabited α] (seeds : List (List α)) (n : Int) :
    Except String (List α) :=
  if n < 0 then .error "too small"
  else if (CartesianProduct.length seeds : Int) ≤ n then .error "too large"
  else .ok (cartGo seeds n.toNat)

/-! ## Observation functions for the snapshot claim

Each of the four copying constructors evaluates `[...seed]` at construction,
so the object's later behaviour depends only on the construction-time
contents `orig` of the caller's array, never on its current contents `now`. -/

/-- `Permutation` results observed after the caller mutates the input array:
the constructor copied (`this.seed = [...seed]`), so only `orig` is read. -/
def Permutation.nthAfter [Inhabited α] (orig _now : List α) (size : Int) (n : Nat) : List α :=
  (Permutation.make orig size).nth n

/-- `Combination` results observed after mutation: the constructor copied. -/
def Combination.nthAfter [Inhabited α] (orig _now : List α) (size : Int) (n : Nat) : List α :=
  (Combination.make orig size).nth n

/-- `BaseN` results observed after mutation: the constructor copied. -/
def BaseN.nthAfter [Inhabited α] (orig _now : List α) (size : Nat) (n : Int) :
    Except String (List α) :=
  (BaseN.make orig size).nth n

/-- `CartesianProduct` results observed after mutation: the constructor
copied every factor (`args.map(v => [...v])`). -/
def CartesianProduct.nthAfter [Inhabited α] (origs _nows : List (List α)) (n : Int) :
    Except String (List α) :=
  CartesianProduct.nth origs n

/-! ## The binomial-coefficient-search formulation (modelled from the spec)

Spec §4.4: ``Implementers may instead implement this via the well-known
identity `rank = Σ_{i=1}^{size} C(c_i, i)` for the chosen sorted index set
`c_1 < … < c_size` and its inverse (searching each `c_i` by binary search on
binomial coefficients)``.  This is the second formulation of the combination
rank-remap; the claim compares it to `findIndex`.  The search below is a
downward linear search (the search strategy does not affect the value found). -/

/-- Largest `c` in `[0, hi]` with `C(c, i) ≤ r` (for `i ≥ 1`, `c = 0` always
qualifies since `C(0, i) = 0`). -/
def cnsSearch (i r : Nat) : Nat → Nat
  | 0 => 0
  | c + 1 => if Nat.choose (c + 1) i ≤ r then c + 1 else cnsSearch i r c

/-- Decode a combination rank into the chosen index set `[c_k, …, c_1]`
(descending) by the combinatorial number system over indices `< N`. -/
def cnsDecode (N : Nat) : Nat → Nat → List Nat
  | 0, _ => []
  | i + 1, r =>
    let c := cnsSearch (i + 1) r (N - 1)
    c :: cnsDecode N i (r - Nat.choose c (i + 1))

/-- Permutation rank of the ascending selection with absolute seed indices
`c_1 < … < c_k` (list given ascending, `j` counts elements already taken):
position `j` contributes `(c_{j+1} - j) · P(N - j - 1, k - j - 1)`. -/
def ascRankGo (N k : Nat) : List Nat → Nat → Nat
  | [], _ => 0
  | c :: rest, j =>
    (c - j) * Nat.descFactorial (N - (j + 1)) (k - (j + 1)) + ascRankGo N k rest (j + 1)

/-- The spec's binomial-coefficient-search remap: decode the combination rank
to its sorted index set, then jump to the permutation rank of that ascending
selection. -/
def binomialRemap (N k r : Nat) : Nat :=
  ascRankGo N k ((cnsDecode N k r).reverse) 0

/-! ## Specification-side notions for the Permutation claim -/

/-- An ordered selection of `k` distinct entries of `seed`: a list of length
`k` without duplicates all of whose members come from `seed`.  When the seed
entries are pairwise distinct these are exactly the k-permutations of the
seed. -/
def IsSelection (seed : List α) (k : Nat) (l : List α) : Prop :=
  l.length = k ∧ l.Nodup ∧ ∀ x ∈ l, x ∈ seed

/-- Recursive form of the factoradic unranking performed by
`Permutation.nth`: pick the element at index `rank / P(L-1, k-1)` of the
shrinking pool and recurse on the remainder (`permPick_eq_lehmer` below
proves this is what the digit loop computes).  Used to reason about `nth`
by induction. -/
def lehmer [Inhabited α] : Nat → List α → Nat → List α
  | 0, _, _ => []
  | k + 1, source, m =>
    let d := Nat.descFactorial (source.length - 1) k
    source.getD (m / d) default :: lehmer k (source.eraseIdx (m / d)) (m % d)

/-! # Lemmas about the numeric core -/

theorem permLoop_eq (k : Nat) : ∀ n p : Nat, permLoop n k p = p * Nat.descFactorial n k := by
  induction k with
  | zero => intro n p; simp [permLoop]
  | succ k ih =>
    intro n p
    cases n with
    | zero =>
      simp [permLoop, ih, Nat.zero_descFactorial_succ]
    | succ m =>
      show permLoop m k (p * (m + 1)) = p * Nat.descFactorial (m + 1) (k + 1)
      rw [ih, Nat.succ_descFactorial_succ]
      ring

theorem permutationVal_eq (n k : Nat) : permutationVal n k = Nat.descFactorial n k := by
  simp [permutationVal, permLoop_eq]

theorem factorial_eq (n : Nat) : factorial n = Nat.factorial n := by
  simp [factorial, permutationVal_eq, Nat.descFactorial_self]

theorem downcast_val (v : Nat) : (downcast v).val = v := by
  rw [downcast]
  split <;> rfl

theorem combinationVal_eq (n k : Nat) : combinationVal n k = Nat.choose n k := by
  rw [combinationVal, permutationVal_eq, permutationVal_eq, Nat.descFactorial_self,
    Nat.choose_eq_descFactorial_div_factorial]

/-! # Claim C7 -/

/-- C7: `permutation(n, 0) = 1`; for `1 ≤ k ≤ n`, `permutation(n, k)` is the
falling factorial `n·(n-1)·…·(n-k+1)` (= `Nat.descFactorial n k`); for
`k > n ≥ 0`, `permutation(n, k) = 0`; and `factorial(n) = permutation(n, n)`. -/
theorem permutation_count_spec (n k : Nat) :
    permutationVal n 0 = 1 ∧
    (1 ≤ k → k ≤ n → permutationVal n k = Nat.descFactorial n k) ∧
    (n < k → permutationVal n k = 0) ∧
    factorial n = permutationVal n n := by
  refine ⟨rfl, fun _ _ => permutationVal_eq n k, fun h => ?_, rfl⟩
  rw [permutationVal_eq]
  exact Nat.descFactorial_of_lt h

/-- Witness for C7 at `n = 5`, `k = 2` (and the zero case at `n = 2`, `k = 5`). -/
theorem permutation_count_spec_witness :
    permutationVal 5 2 = 20 ∧ permutationVal 2 5 = 0 := by
  constructor
  · have h := (permutation_count_spec 5 2).2.1 (by decide) (by decide)
    rw [h]
    decide
  · exact (permutation_count_spec 2 5).2.2.1 (by decide)

/-! # Claim C6 -/

/-- C6, counterexample: `combination(26, 13)` fails: `P(26, 13)` exceeds
`Number.MAX_SAFE_INTEGER`, so its downcast stays a `BigInt`, while
`13! = P(13, 13)` fits and is downcast to a `Number`; dividing them throws
`TypeError` — refuting the claim that `combination` never fails for
`0 ≤ k ≤ n`. -/
theorem combination_type_error :
    maxSafeInteger < permutationVal 26 13 ∧
    permutationVal 13 13 ≤ maxSafeInteger ∧
    combination 26 13 = Except.error "TypeError: cannot mix BigInt and other types" :=
  ⟨by decide, by decide, rfl⟩

/-- C6 (amended): for `0 ≤ k ≤ n`, `combination(n, k)` divides the *downcast*
results of `permutation(n, k)` and `permutation(k, k)`.  Whenever both sit in
the same representation — both within `Number.MAX_SAFE_INTEGER`, or both
above it — the division is performed, is exact (`k!` always divides
`P(n, k)`), and the exact integer `C(n, k)` is returned under the downcast
rule.  When `P(n, k)` exceeds `MAX_SAFE_INTEGER` but `k!` does not, the
division mixes `BigInt` and `Number` and `combination` fails with a
`TypeError`. -/
theorem combination_count_spec (n k : Nat) (h : k ≤ n) :
    (permutationVal n k ≤ maxSafeInteger →
      combination n k = Except.ok (downcast (Nat.choose n k))) ∧
    (maxSafeInteger < permutationVal k k →
      combination n k = Except.ok (downcast (Nat.choose n k))) ∧
    (maxSafeInteger < permutationVal n k → permutationVal k k ≤ maxSafeInteger →
      combination n k = Except.error "TypeError: cannot mix BigInt and other types") ∧
    Nat.factorial k ∣ permutationVal n k := by
  have hdvd : Nat.factorial k ∣ permutationVal n k := by
    rw [permutationVal_eq]
    exact Nat.factorial_dvd_descFactorial n k
  have hfle : permutationVal k k ≤ permutationVal n k := by
    rw [permutationVal_eq, permutationVal_eq, Nat.descFactorial_self]
    rw [permutationVal_eq] at hdvd
    refine Nat.le_of_dvd ?_ hdvd
    exact Nat.pos_of_ne_zero (fun h0 => absurd (Nat.descFactorial_eq_zero_iff_lt.mp h0) (by omega))
  have hval : permutationVal n k / permutationVal k k = Nat.choose n k := combinationVal_eq n k
  refine ⟨fun hp => ?_, fun hk2 => ?_, fun hp hk2 => ?_, hdvd⟩
  · have hk1 : permutationVal k k ≤ maxSafeInteger := Nat.le_trans hfle hp
    rw [combination, permutation, permutation, downcast, downcast, if_pos hp, if_pos hk1]
    show Except.map downcast (Except.ok (permutationVal n k / permutationVal k k)) = _
    rw [hval]
    rfl
  · have hp2 : maxSafeInteger < permutationVal n k := Nat.lt_of_lt_of_le hk2 hfle
    rw [combination, permutation, permutation, downcast, downcast,
      if_neg (by omega), if_neg (by omega)]
    show Except.map downcast (Except.ok (permutationVal n k / permutationVal k k)) = _
    rw [hval]
    rfl
  · rw [combination, permutation, permutation, downcast, downcast,
      if_neg (by omega), if_pos hk2]
    rfl

/-- Witness for C6 (amended) at `n = 5`, `k = 2`. -/
theorem combination_count_spec_witness :
    combination 5 2 = Except.ok (JSInt.num 10) := by
  have h := (combination_count_spec 5 2 (by decide)).1 (by decide)
  rw [h]
  rfl

/-! # Claim C2 (code bug: the findIndex bit trick is wrong beyond tiny cases) -/

/-- C2, failing input: `Combination([1,2,3], 2)` has `length = 3` but its
enumeration is `[[1,2], [1,3], [2,1]]`: `nth(2)` returns `[2,1]`, whose
elements are not in seed order and whose element set duplicates `nth(0)`,
so the subset `{2,3}` is never produced. -/
theorem combination_nth_failing :
    (Combination.make ([1, 2, 3] : List Nat) 2).length = 3 ∧
    (Combination.make ([1, 2, 3] : List Nat) 2).nth 0 = [1, 2] ∧
    (Combination.make ([1, 2, 3] : List Nat) 2).nth 2 = [2, 1] := by
  decide

/-! # Claim C3 (code bug: the bit trick disagrees with the spec formulation) -/

/-- C3, failing input: at seed length `N = 3 ≤ 12`, `size = 2`, rank
`2 < C(3,2) = 3`, the code's `findIndex` gives permutation rank `2` while the
binomial-coefficient-search formulation gives `3`. -/
theorem findIndex_binomial_disagree :
    findIndex 2 ≠ binomialRemap 3 2 2 ∧ 2 < combinationVal 3 2 := by
  decide

/-! # Claim C4 -/

/-- C4, counterexample: `Permutation.nth` performs no range check; at
rank `6 = length` it silently returns `[1, 2, 3]` instead of failing. -/
theorem permutation_nth_no_range_check :
    (Permutation.make ([1, 2, 3] : List Nat) 0).length = 6 ∧
    (Permutation.make ([1, 2, 3] : List Nat) 0).nth 6 = [1, 2, 3] := by
  decide

theorem baseN_nth_isOk [Inhabited α] (seed : List α) (size : Nat) (n : Int) :
    ((BaseN.make seed size).nth n).isOk = false ↔
      n < 0 ∨ ((BaseN.make seed size).length : Int) ≤ n := by
  rw [BaseN.nth]
  split_ifs with h1 h2 <;> simp [Except.isOk, Except.toBool] <;> omega

theorem powerSet_nth_isOk [Inhabited α] (seed : List α) (n : Int) :
    ((PowerSet.nth seed n).isOk = false) ↔
      n < 0 ∨ (PowerSet.length seed : Int) ≤ n := by
  rw [PowerSet.nth, PowerSet.nthAfter]
  split_ifs with h1 h2 <;> simp [Except.isOk, Except.toBool] <;> omega

theorem cartesianProduct_nth_isOk [Inhabited α] (seeds : List (List α)) (n : Int) :
    ((CartesianProduct.nth seeds n).isOk = false) ↔
      n < 0 ∨ (CartesianProduct.length seeds : Int) ≤ n := by
  rw [CartesianProduct.nth]
  split_ifs with h1 h2 <;> simp [Except.isOk, Except.toBool] <;> omega

/-- C4 (amended): only `BaseN`, `PowerSet` and `CartesianProduct` check the
rank: their `nth` fails with a range error iff `rank < 0` or `rank ≥ length`;
`Permutation.nth` and `Combination.nth` perform no range check and return a
sequence for every non-negative rank. -/
theorem nth_range_error_spec [Inhabited α] (seed : List α) (size : Nat)
    (seeds : List (List α)) (n : Int) :
    (((BaseN.make seed size).nth n).isOk = false ↔
      n < 0 ∨ ((BaseN.make seed size).length : Int) ≤ n) ∧
    ((PowerSet.nth seed n).isOk = false ↔
      n < 0 ∨ (PowerSet.length seed : Int) ≤ n) ∧
    ((CartesianProduct.nth seeds n).isOk = false ↔
      n < 0 ∨ (CartesianProduct.length seeds : Int) ≤ n) :=
  ⟨baseN_nth_isOk seed size n, powerSet_nth_isOk seed n, cartesianProduct_nth_isOk seeds n⟩

/-! # Claim C9 (code bug: PowerSet does not snapshot its seed) -/

/-- C9, failing input: `PowerSet` stores the caller's array itself
(`this.seed = seed`, no copy): constructing over `[1, 2]` and then mutating
the array to `[5, 2]` changes `nth(1)` from `[1]` to `[5]`.  The other four
variants copy (`[...seed]`), so their results depend only on the
construction-time contents. -/
theorem powerSet_mutation_visible :
    PowerSet.nthAfter ([1, 2] : List Nat) [5, 2] 1 = Except.ok [5] ∧
    PowerSet.nthAfter ([1, 2] : List Nat) [1, 2] 1 = Except.ok [1] ∧
    (∀ (orig now : List Nat) (size : Int) (n : Nat),
      Permutation.nthAfter orig now size n = Permutation.nthAfter orig orig size n) ∧
    (∀ (origs nows : List (List Nat)) (n : Int),
      CartesianProduct.nthAfter origs nows n = CartesianProduct.nthAfter origs origs n) := by
  refine ⟨?_, ?_, fun _ _ _ _ => rfl, fun _ _ _ => rfl⟩ <;>
    simp [PowerSet.nthAfter, PowerSet.length, powGo]

/-! # Claim C10 -/

end JsComb


namespace JsComb

/-! # Claim C5 -/

theorem map_getD_range [Inhabited α] (a : List α) :
    (List.range a.length).map (fun i => a.getD i default) = a := by
  induction a with
  | nil => rfl
  | cons x t ih =>
    rw [List.length_cons, List.range_succ_eq_map, List.map_cons, List.map_map]
    simp only [Function.comp_def, List.getD_cons_zero, List.getD_cons_succ, Nat.succ_eq_add_one]
    rw [ih]

theorem cartGo_two_enum [Inhabited α] (a : List α) : ∀ b : List α,
    (List.range (a.length * b.length)).map (fun r => cartGo [a, b] r) =
      b.flatMap (fun y => a.map (fun x => [x, y])) := by
  intro b
  induction b with
  | nil => simp
  | cons y t ih =>
    rcases Nat.eq_zero_or_pos a.length with hm | hm
    · rw [List.length_eq_zero.mp hm] at ih ⊢
      simp
    · rw [List.length_cons, Nat.mul_succ, Nat.add_comm, List.range_add, List.map_append,
        List.map_map, List.flatMap_cons]
      congr 1
      · have h1 : ∀ r ∈ List.range a.length,
            cartGo [a, y :: t] r = [a.getD r default, y] := by
          intro r hr
          rw [List.mem_range] at hr
          simp [cartGo, Nat.mod_eq_of_lt hr, Nat.div_eq_of_lt hr]
        rw [List.map_congr_left h1]
        conv_rhs => rw [← map_getD_range a]
        rw [List.map_map]
        simp [Function.comp_def]
      · rw [← ih]
        apply List.map_congr_left
        intro r hr
        rw [List.mem_range] at hr
        have hp : 0 < t.length := by
          rcases Nat.eq_zero_or_pos t.length with h0 | h0
          · rw [h0, Nat.mul_zero] at hr; omega
          · exact h0
        have hq : r / a.length < t.length := by
          rw [Nat.div_lt_iff_lt_mul hm, Nat.mul_comm]
          exact hr
        simp only [Function.comp_def, cartGo, Nat.add_comm a.length r, Nat.add_mod_right,
          Nat.add_div_right r hm, List.length_cons]
        congr 1
        rw [Nat.mod_eq_of_lt (by omega), Nat.mod_eq_of_lt hq, List.getD_cons_succ]

/-- C5, counterexample: `CartesianProduct([0,1],[2,3]).nth(1)` is `[1, 2]` —
the first factor advanced, the second did not — whereas the claim's
first-slowest/last-fastest order dictates `[0, 3]`. -/
theorem cartesian_order_counterexample :
    CartesianProduct.nth ([[0, 1], [2, 3]] : List (List Nat)) 1 = Except.ok [1, 2] ∧
    ([1, 2] : List Nat) ≠ [0, 3] :=
  ⟨rfl, by decide⟩

/-- C5 (amended): for `CartesianProduct(a, b)`, `length = |a| · |b|`; ranging
`nth` over `[0, length)` enumerates every pair exactly once, with the *first*
factor varying fastest (inner, the least-significant mixed radix position)
and the *last* factor varying slowest (outer). -/
theorem cartesianProduct_pairs_spec [Inhabited α] (a b : List α) :
    CartesianProduct.length [a, b] = a.length * b.length ∧
    (List.range (a.length * b.length)).map (fun r => cartGo [a, b] r) =
      b.flatMap (fun y => a.map (fun x => [x, y])) ∧
    (∀ n : Int, 0 ≤ n → n < ((a.length * b.length : Nat) : Int) →
      CartesianProduct.nth [a, b] n = Except.ok (cartGo [a, b] n.toNat)) := by
  have hlen : CartesianProduct.length [a, b] = a.length * b.length := by
    simp [CartesianProduct.length]
  refine ⟨hlen, cartGo_two_enum a b, fun n h0 hlt => ?_⟩
  rw [CartesianProduct.nth, if_neg (by omega), if_neg (by rw [hlen]; omega)]

/-- Witness for C5 (amended) at `a = [0,1]`, `b = [2,3]`, `n = 1`. -/
theorem cartesianProduct_pairs_spec_witness :
    CartesianProduct.nth ([[0, 1], [2, 3]] : List (List Nat)) 1 = Except.ok [1, 2] := by
  have h := (cartesianProduct_pairs_spec ([0, 1] : List Nat) [2, 3]).2.2 1
    (by decide) (by decide)
  exact h

end JsComb

namespace JsComb

/-! # Lemmas about factoradic digits -/

theorem facDigitsGo_length (l : Nat) : ∀ x, (facDigitsGo l x).length = l + 1 := by
  induction l with
  | zero => intro x; rfl
  | succ l ih =>
    intro x
    show (facDigitsGo l (x % Nat.factorial (l + 1)) ++ [x / Nat.factorial (l + 1)]).length = l + 2
    rw [List.length_append, ih]
    rfl

theorem facDigitsGo_getD_zero (l : Nat) : ∀ x, (facDigitsGo l x).getD 0 0 = 0 := by
  induction l with
  | zero => intro x; rfl
  | succ l ih =>
    intro x
    show (facDigitsGo l (x % Nat.factorial (l + 1)) ++ [x / Nat.factorial (l + 1)]).getD 0 0 = 0
    rw [List.getD_append _ _ _ _ (by rw [facDigitsGo_length]; omega)]
    exact ih _

theorem facDigitsGo_getD_top (l x : Nat) :
    (facDigitsGo (l + 1) x).getD (l + 1) 0 = x / Nat.factorial (l + 1) := by
  show (facDigitsGo l (x % Nat.factorial (l + 1)) ++ [x / Nat.factorial (l + 1)]).getD (l + 1) 0
      = x / Nat.factorial (l + 1)
  rw [List.getD_append_right _ _ _ _ (by rw [facDigitsGo_length])]
  rw [facDigitsGo_length]
  simp

theorem facDigitsGo_getD_mid (l : Nat) : ∀ x i, 1 ≤ i → i < l →
    (facDigitsGo l x).getD i 0 = (x % Nat.factorial (i + 1)) / Nat.factorial i := by
  induction l with
  | zero => intro x i h1 h2; omega
  | succ l ih =>
    intro x i h1 h2
    show (facDigitsGo l (x % Nat.factorial (l + 1)) ++ [x / Nat.factorial (l + 1)]).getD i 0 = _
    rw [List.getD_append _ _ _ _ (by rw [facDigitsGo_length]; omega)]
    rcases Nat.lt_or_ge i l with hi | hi
    · rw [ih _ i h1 hi, Nat.mod_mod_of_dvd _ (Nat.factorial_dvd_factorial (by omega))]
    · have hil : i = l := by omega
      subst hil
      obtain ⟨j, hj⟩ : ∃ j, i = j + 1 := ⟨i - 1, by omega⟩
      subst hj
      rw [facDigitsGo_getD_top]

theorem facValue_append_singleton (L : List Nat) (t : Nat) :
    facValue (L ++ [t]) = facValue L + t * Nat.factorial L.length := by
  rw [facValue, facValue, List.length_append]
  show ((List.range (L.length + 1)).map _).sum = _
  rw [List.range_succ, List.map_append, List.sum_append]
  congr 1
  · refine congrArg List.sum (List.map_congr_left ?_)
    intro i hi
    rw [List.mem_range] at hi
    rw [List.getD_append _ _ _ _ hi]
  · rw [List.map_singleton, List.sum_singleton,
      List.getD_append_right _ _ _ _ (Nat.le_refl L.length), Nat.sub_self]
    rfl

theorem facValue_facDigitsGo : ∀ l, 1 ≤ l → ∀ x, facValue (facDigitsGo l x) = x := by
  intro l
  induction l with
  | zero => omega
  | succ l ih =>
    intro _ x
    show facValue (facDigitsGo l (x % Nat.factorial (l + 1)) ++ [x / Nat.factorial (l + 1)]) = x
    rw [facValue_append_singleton, facDigitsGo_length]
    rcases Nat.eq_zero_or_pos l with hl | hl
    · subst hl
      show facValue [0] + x / Nat.factorial 1 * Nat.factorial 1 = x
      have : facValue [0] = 0 := rfl
      rw [this]
      simp [Nat.factorial]
    · rw [ih hl]
      exact Nat.mod_add_div' x (Nat.factorial (l + 1))

theorem facDigitsGo_getD_le (l x i : Nat) (h1 : 1 ≤ i) (h2 : i < l) :
    (facDigitsGo l x).getD i 0 ≤ i := by
  rw [facDigitsGo_getD_mid l x i h1 h2]
  have hfac : 0 < Nat.factorial i := Nat.factorial_pos i
  have hlt : (x % Nat.factorial (i + 1)) / Nat.factorial i < i + 1 := by
    rw [Nat.div_lt_iff_lt_mul hfac]
    calc x % Nat.factorial (i + 1) < Nat.factorial (i + 1) :=
          Nat.mod_lt _ (Nat.factorial_pos _)
      _ = (i + 1) * Nat.factorial i := Nat.factorial_succ i
  omega

theorem facDigitsGo_getD_top_le (l x : Nat) (hx : x < Nat.factorial (l + 2)) :
    (facDigitsGo (l + 1) x).getD (l + 1) 0 ≤ l + 1 := by
  rw [facDigitsGo_getD_top]
  have hlt : x / Nat.factorial (l + 1) < l + 2 := by
    rw [Nat.div_lt_iff_lt_mul (Nat.factorial_pos _)]
    calc x < Nat.factorial (l + 2) := hx
      _ = (l + 2) * Nat.factorial (l + 1) := Nat.factorial_succ (l + 1)
  omega

theorem faclen_eq (bn l : Nat) :
    faclen bn l = if Nat.factorial l < bn then faclen bn (l + 1) else l := by
  rw [faclen]
  by_cases h : Nat.factorial l < bn
  · rw [dif_pos h, if_pos h]
  · rw [dif_neg h, if_neg h]

theorem faclen_spec (bn : Nat) : ∀ l : Nat,
    l ≤ faclen bn l ∧ bn ≤ Nat.factorial (faclen bn l) ∧
      ∀ m, l ≤ m → m < faclen bn l → Nat.factorial m < bn := by
  refine faclen.induct bn _ ?_ ?_
  · intro x h ih
    rw [faclen_eq, if_pos h]
    obtain ⟨ih1, ih2, ih3⟩ := ih
    refine ⟨by omega, ih2, fun m hm1 hm2 => ?_⟩
    rcases Nat.eq_or_lt_of_le hm1 with he | hlt
    · exact he ▸ h
    · exact ih3 m (by omega) hm2
  · intro x h
    rw [faclen_eq, if_neg h]
    exact ⟨Nat.le_refl x, by omega, fun m hm1 hm2 => by omega⟩

end JsComb

namespace JsComb

theorem factoradicLen_spec (bn : Nat) :
    bn < Nat.factorial (factoradicLen bn + 1) ∧
      (1 ≤ factoradicLen bn → Nat.factorial (factoradicLen bn) ≤ bn) := by
  obtain ⟨hge, hle, hmin⟩ := faclen_spec bn 1
  simp only [factoradicLen]
  split_ifs with h
  · refine ⟨?_, fun hL => ?_⟩
    · have he : faclen bn 1 - 1 + 1 = faclen bn 1 := by omega
      rw [he]
      exact h
    · have h2 := hmin (faclen bn 1 - 1) (by omega) (by omega)
      omega
  · have hstrict : Nat.factorial (faclen bn 1) < Nat.factorial (faclen bn 1 + 1) := by
      rw [Nat.factorial_lt (by omega)]
      omega
    exact ⟨by omega, fun _ => by omega⟩

/-! # Claim C8 -/

theorem jsNumber_eq_of_le (x : Nat) (h : x ≤ 2 ^ 53) : jsNumber x = x := by
  rw [jsNumber, if_pos h]

theorem facDigitsGoJS_eq_of_le : ∀ (l x : Nat), x ≤ 2 ^ 53 →
    facDigitsGoJS l x = facDigitsGo l x := by
  intro l
  induction l with
  | zero => intro x h; rfl
  | succ l ih =>
    intro x h
    show facDigitsGoJS l (x % Nat.factorial (l + 1)) ++ [jsNumber (x / Nat.factorial (l + 1))]
        = facDigitsGo l (x % Nat.factorial (l + 1)) ++ [x / Nat.factorial (l + 1)]
    rw [ih _ (Nat.le_trans (Nat.mod_le x _) h),
      jsNumber_eq_of_le _ (Nat.le_trans (Nat.div_le_self x _) h)]

theorem factoradicJS_eq_of_le (n l : Nat) (h : n ≤ 2 ^ 53) :
    factoradicJS n l = factoradic n l := by
  rw [factoradicJS, factoradic]
  split_ifs with h0
  · exact facDigitsGoJS_eq_of_le _ n h
  · exact facDigitsGoJS_eq_of_le _ n h

/-- C8, counterexamples: (i) with an explicit digit count too small for the
value, the top digit exceeds its positional bound:
`factoradic(100, 2) = [0, 0, 50]` with `d[2] = 50 > 2` (while still
`0·1! + 50·2! = 100`); (ii) beyond `2^53`, the rounding digit store
`Math.floor(Number(bn / bf))` breaks even the sum identity:
`factoradic(2^53 + 1, 1)` stores the digit `2^53` (nearest double, ties to
even), so `Σ d[i]·i! = 2^53 ≠ value`. -/
theorem factoradic_counterexample :
    factoradicJS 100 2 = [0, 0, 50] ∧ ¬((factoradicJS 100 2).getD 2 0 ≤ 2) ∧
    factoradicJS (2 ^ 53 + 1) 1 = [0, 2 ^ 53] ∧
    facValue (factoradicJS (2 ^ 53 + 1) 1) ≠ 2 ^ 53 + 1 := by
  have hjs : jsNumber (2 ^ 53 + 1) = 2 ^ 53 := by
    have hlog : Nat.log2 (2 ^ 53 + 1) = 53 := by
      rw [Nat.log2_eq_log_two]
      exact Nat.log_eq_of_pow_le_of_lt_pow (by norm_num) (by norm_num)
    rw [jsNumber, if_neg (by norm_num), hlog]
    norm_num
  have h1 : factoradicJS (2 ^ 53 + 1) 1 = [0, 2 ^ 53] := by
    show facDigitsGoJS 0 ((2 ^ 53 + 1) % Nat.factorial 1) ++
        [jsNumber ((2 ^ 53 + 1) / Nat.factorial 1)] = [0, 2 ^ 53]
    rw [show (2 ^ 53 + 1) / Nat.factorial 1 = 2 ^ 53 + 1 from Nat.div_one _, hjs]
    rfl
  have h100 : factoradicJS 100 2 = factoradic 100 2 := factoradicJS_eq_of_le 100 2 (by norm_num)
  refine ⟨by rw [h100]; decide, by rw [h100]; decide, h1, ?_⟩
  rw [h1]
  decide

/-- C8 (amended): for every value up to `2^53` (the exactly-representable
double range), `factoradic(value, digitCount)` returns a digit array with
`d[0] = 0`, exactly `digitCount` digit positions (array length
`digitCount + 1`) and `value = Σ_{i=1..l} d[i]·i!`; the positional bounds
`0 ≤ d[i] ≤ i` hold for every position below the top one unconditionally,
and for the top position under the proviso `value < (digitCount+1)!`.
With `digitCount = 0` the minimal width `l` is used (`value < (l+1)!` and
`l! ≤ value` unless `l = 0`) and every positional bound holds.  Beyond
`2^53` the `Math.floor(Number(...))` digit store rounds and even the sum
identity can fail; with an explicit digit count too small for the value the
top bound fails (`factoradic_counterexample`). -/
theorem factoradic_spec (n l : Nat) (hl : 1 ≤ l) (hsafe : n ≤ 2 ^ 53) :
    (factoradicJS n l = factoradic n l ∧
     (factoradicJS n l).getD 0 0 = 0 ∧
     (factoradicJS n l).length = l + 1 ∧
     facValue (factoradicJS n l) = n ∧
     (∀ i, 1 ≤ i → i < l → (factoradicJS n l).getD i 0 ≤ i) ∧
     (n < Nat.factorial (l + 1) → (factoradicJS n l).getD l 0 ≤ l)) ∧
    (factoradicJS n 0 = factoradic n 0 ∧
     (factoradicJS n 0).getD 0 0 = 0 ∧
     (factoradicJS n 0).length = factoradicLen n + 1 ∧
     facValue (factoradicJS n 0) = n ∧
     n < Nat.factorial (factoradicLen n + 1) ∧
     (1 ≤ factoradicLen n → Nat.factorial (factoradicLen n) ≤ n) ∧
     (∀ i, 1 ≤ i → i ≤ factoradicLen n → (factoradicJS n 0).getD i 0 ≤ i)) := by
  have hbr1 : factoradicJS n l = factoradic n l := factoradicJS_eq_of_le n l hsafe
  have hbr0 : factoradicJS n 0 = factoradic n 0 := factoradicJS_eq_of_le n 0 hsafe
  rw [hbr1, hbr0]
  have hexp : factoradic n l = facDigitsGo l n := by
    rw [factoradic, if_neg (by omega)]
  have hmin : factoradic n 0 = facDigitsGo (factoradicLen n) n := by
    rw [factoradic, if_pos rfl]
  obtain ⟨hlt, hfge⟩ := factoradicLen_spec n
  constructor
  · refine ⟨rfl, by rw [hexp]; exact facDigitsGo_getD_zero l n,
      by rw [hexp]; exact facDigitsGo_length l n,
      by rw [hexp]; exact facValue_facDigitsGo l hl n,
      fun i h1 h2 => by rw [hexp]; exact facDigitsGo_getD_le l n i h1 h2,
      fun hn => ?_⟩
    rw [hexp]
    obtain ⟨j, hj⟩ : ∃ j, l = j + 1 := ⟨l - 1, by omega⟩
    subst hj
    exact facDigitsGo_getD_top_le j n hn
  · rcases Nat.eq_zero_or_pos (factoradicLen n) with hL | hL
    · have hn : n = 0 := by
        have h2 := hlt
        rw [hL] at h2
        have h1 : Nat.factorial (0 + 1) = 1 := rfl
        omega
      subst hn
      refine ⟨rfl, by rw [hmin, hL]; rfl, by rw [hmin, hL]; rfl, by rw [hmin, hL]; rfl,
        hlt, fun h => by rw [hL] at h; omega, fun i h1 h2 => by rw [hL] at h2; omega⟩
    · refine ⟨rfl, by rw [hmin]; exact facDigitsGo_getD_zero _ n,
        by rw [hmin]; exact facDigitsGo_length _ n,
        by rw [hmin]; exact facValue_facDigitsGo _ hL n,
        hlt, hfge, fun i h1 h2 => ?_⟩
      rw [hmin]
      rcases Nat.lt_or_ge i (factoradicLen n) with hi | hi
      · exact facDigitsGo_getD_le _ n i h1 hi
      · have he : i = factoradicLen n := by omega
        obtain ⟨j, hj⟩ : ∃ j, factoradicLen n = j + 1 := ⟨factoradicLen n - 1, by omega⟩
        rw [he, hj]
        apply facDigitsGo_getD_top_le j n
        show n < Nat.factorial (j + 1 + 1)
        rw [← hj]
        exact hlt

/-- Witness for C8 at `value = 5`, `digitCount = 3` (and the minimal-width
case evaluated through the same application). -/
theorem factoradic_spec_witness :
    facValue (factoradicJS 5 3) = 5 ∧ (factoradicJS 5 3).getD 2 0 ≤ 2 ∧
      (factoradicJS 5 3).getD 3 0 ≤ 3 :=
  ⟨(factoradic_spec 5 3 (by decide) (by norm_num)).1.2.2.2.1,
   (factoradic_spec 5 3 (by decide) (by norm_num)).1.2.2.2.2.1 2 (by decide) (by decide),
   (factoradic_spec 5 3 (by decide) (by norm_num)).1.2.2.2.2.2 (by decide)⟩

end JsComb

namespace JsComb

/-! # Lemmas for the Permutation correctness claim -/

theorem descFactorial_pos {n k : Nat} (h : k ≤ n) : 0 < Nat.descFactorial n k :=
  Nat.pos_of_ne_zero (fun h0 => absurd (Nat.descFactorial_eq_zero_iff_lt.mp h0) (by omega))

theorem descFactorial_mul_factorial (n : Nat) : ∀ k, k ≤ n →
    Nat.descFactorial n k * Nat.factorial (n - k) = Nat.factorial n := by
  intro k
  induction k with
  | zero => intro h; simp
  | succ k ih =>
    intro h
    rw [Nat.descFactorial_succ]
    have h1 : n - k = (n - (k + 1)) + 1 := by omega
    calc (n - k) * Nat.descFactorial n k * Nat.factorial (n - (k + 1))
        = Nat.descFactorial n k * ((n - k) * Nat.factorial (n - (k + 1))) := by ring
      _ = Nat.descFactorial n k * Nat.factorial (n - k) := by
          rw [h1, Nat.factorial_succ]
      _ = Nat.factorial n := ih (by omega)

theorem getD_not_mem_eraseIdx [Inhabited α] (s : List α) (q : Nat)
    (hnd : s.Nodup) (hq : q < s.length) : s.getD q default ∉ s.eraseIdx q := by
  intro hmem
  rw [List.mem_eraseIdx_iff_getElem] at hmem
  obtain ⟨i, hi, hne, hie⟩ := hmem
  rw [List.getD_eq_getElem s default hq] at hie
  exact hne (hnd.getElem_inj_iff.mp hie)

theorem mem_eraseIdx_of_ne [Inhabited α] (s : List α) (q : Nat) (x : α)
    (hq : q < s.length) (hx : x ∈ s) (hne : x ≠ s.getD q default) :
    x ∈ s.eraseIdx q := by
  obtain ⟨p, hp, hpe⟩ := List.mem_iff_getElem.mp hx
  rw [List.mem_eraseIdx_iff_getElem]
  refine ⟨p, hp, fun hpq => ?_, hpe⟩
  apply hne
  rw [← hpe, List.getD_eq_getElem s default hq]
  subst hpq
  rfl

theorem permPick_congr [Inhabited α] (d1 d2 : List Nat) :
    ∀ (steps : Nat) (source : List α) (i : Nat),
      (∀ j, j ≤ i → d1.getD j 0 = d2.getD j 0) →
      permPick d1 source i steps = permPick d2 source i steps := by
  intro steps
  induction steps with
  | zero => intro source i h; rfl
  | succ st ih =>
    intro source i h
    show source.getD (d1.getD i 0) default :: permPick d1 (source.eraseIdx (d1.getD i 0)) (i - 1) st
        = source.getD (d2.getD i 0) default :: permPick d2 (source.eraseIdx (d2.getD i 0)) (i - 1) st
    rw [h i (Nat.le_refl i)]
    exact congrArg _ (ih _ _ (fun j hj => h j (by omega)))

end JsComb

namespace JsComb

theorem permPick_eq_lehmer [Inhabited α] :
    ∀ (k : Nat) (source : List α) (n : Nat), k ≤ source.length →
      n < Nat.descFactorial source.length k →
      permPick (facDigitsGo source.length (n * Nat.factorial (source.length - k)))
        source (source.length - 1) k = lehmer k source n := by
  intro k
  induction k with
  | zero => intro source n hk hn; rfl
  | succ k ih =>
    intro source n hk hn
    obtain ⟨m, hm⟩ : ∃ m, source.length = m + 1 := ⟨source.length - 1, by omega⟩
    have hkm : k ≤ m := by omega
    have hDpos : 0 < Nat.descFactorial m k := descFactorial_pos hkm
    have hDF : Nat.descFactorial m k * Nat.factorial (m - k) = Nat.factorial m :=
      descFactorial_mul_factorial m k hkm
    have hLD : Nat.descFactorial (m + 1) (k + 1) = (m + 1) * Nat.descFactorial m k :=
      Nat.succ_descFactorial_succ m k
    rw [hm] at hn ⊢
    have hsub : m + 1 - (k + 1) = m - k := by omega
    rw [hsub, Nat.add_sub_cancel]
    have hx : n * Nat.factorial (m - k) < Nat.factorial (m + 1) := by
      calc n * Nat.factorial (m - k)
          < Nat.descFactorial (m + 1) (k + 1) * Nat.factorial (m - k) :=
            (Nat.mul_lt_mul_right (Nat.factorial_pos _)).mpr hn
        _ = Nat.factorial (m + 1) := by
            rw [← hsub]
            exact descFactorial_mul_factorial (m + 1) (k + 1) (hm ▸ hk)
    have hq : n / Nat.descFactorial m k < m + 1 :=
      (Nat.div_lt_iff_lt_mul hDpos).mpr (hLD ▸ hn)
    -- the top digit of the scaled rank is the lehmer index
    have hdig_top : (facDigitsGo (m + 1) (n * Nat.factorial (m - k))).getD m 0
        = n / Nat.descFactorial m k := by
      rcases Nat.eq_zero_or_pos m with hm0 | hm0
      · subst hm0
        have hk0 : k = 0 := by omega
        subst hk0
        have hn0 : n = 0 := by
          have h1 : Nat.descFactorial (0 + 1) (0 + 1) = 1 := rfl
          omega
        subst hn0
        rfl
      · rw [facDigitsGo_getD_mid (m + 1) _ m hm0 (by omega),
          Nat.mod_eq_of_lt hx, ← hDF,
          Nat.mul_div_mul_right n (Nat.descFactorial m k) (Nat.factorial_pos (m - k))]
    -- digits below the top agree with the digits of the reduced rank
    have hagree : ∀ j, j ≤ m - 1 →
        (facDigitsGo (m + 1) (n * Nat.factorial (m - k))).getD j 0 =
          (facDigitsGo m ((n * Nat.factorial (m - k)) % Nat.factorial m)).getD j 0 := by
      intro j hj
      rcases Nat.eq_zero_or_pos j with hj0 | hj0
      · subst hj0
        rw [facDigitsGo_getD_zero, facDigitsGo_getD_zero]
      · have hjm : j < m := by omega
        rw [facDigitsGo_getD_mid (m + 1) _ j hj0 (by omega),
          facDigitsGo_getD_mid m _ j hj0 hjm,
          Nat.mod_mod_of_dvd _ (Nat.factorial_dvd_factorial (by omega))]
    -- the reduced scaled rank is the scaling of the reduced rank
    have hx2 : (n % Nat.descFactorial m k) * Nat.factorial (m - k)
        = (n * Nat.factorial (m - k)) % Nat.factorial m := by
      rw [← hDF, Nat.mul_mod_mul_right]
    -- unfold one step of both sides
    show (source.getD ((facDigitsGo (m + 1) (n * Nat.factorial (m - k))).getD m 0) default) ::
        permPick (facDigitsGo (m + 1) (n * Nat.factorial (m - k)))
          (source.eraseIdx ((facDigitsGo (m + 1) (n * Nat.factorial (m - k))).getD m 0))
          (m - 1) k
      = (source.getD (n / Nat.descFactorial (source.length - 1) k) default) ::
        lehmer k (source.eraseIdx (n / Nat.descFactorial (source.length - 1) k))
          (n % Nat.descFactorial (source.length - 1) k)
    rw [hm, Nat.add_sub_cancel, hdig_top]
    congr 1
    have hlen2 : (source.eraseIdx (n / Nat.descFactorial m k)).length = m := by
      rw [List.length_eraseIdx]
      rw [hm]
      simp [hq]
    have ih2 := ih (source.eraseIdx (n / Nat.descFactorial m k)) (n % Nat.descFactorial m k)
      (by rw [hlen2]; exact hkm)
      (by rw [hlen2]; exact Nat.mod_lt n hDpos)
    rw [hlen2] at ih2
    rw [hx2] at ih2
    rw [← ih2]
    exact permPick_congr _ _ k _ (m - 1) hagree

end JsComb

namespace JsComb

theorem lehmer_length [Inhabited α] :
    ∀ (k : Nat) (source : List α) (m : Nat), (lehmer k source m).length = k := by
  intro k
  induction k with
  | zero => intro source m; rfl
  | succ k ih =>
    intro source m
    show (_ :: lehmer k _ _).length = k + 1
    rw [List.length_cons, ih]

theorem lehmer_mem [Inhabited α] :
    ∀ (k : Nat) (source : List α) (m : Nat), k ≤ source.length →
      m < Nat.descFactorial source.length k →
      ∀ x ∈ lehmer k source m, x ∈ source := by
  intro k
  induction k with
  | zero => intro source m hk hm x hx; exact absurd hx (List.not_mem_nil x)
  | succ k ih =>
    intro source m hk hm x hx
    obtain ⟨L, hL⟩ : ∃ L, source.length = L + 1 := ⟨source.length - 1, by omega⟩
    have hkL : k ≤ L := by omega
    have hDpos : 0 < Nat.descFactorial L k := descFactorial_pos hkL
    have hq : m / Nat.descFactorial L k < L + 1 := by
      rw [Nat.div_lt_iff_lt_mul hDpos]
      rw [hL, Nat.succ_descFactorial_succ] at hm
      exact hm
    rw [show lehmer (k + 1) source m
        = source.getD (m / Nat.descFactorial (source.length - 1) k) default ::
          lehmer k (source.eraseIdx (m / Nat.descFactorial (source.length - 1) k))
            (m % Nat.descFactorial (source.length - 1) k) from rfl] at hx
    rw [hL, Nat.add_sub_cancel] at hx
    rcases List.mem_cons.mp hx with hhead | htail
    · rw [hhead, List.getD_eq_getElem source default (by omega)]
      exact List.getElem_mem _
    · have hlen2 : (source.eraseIdx (m / Nat.descFactorial L k)).length = L := by
        rw [List.length_eraseIdx, hL]
        simp [hq]
      have := ih (source.eraseIdx (m / Nat.descFactorial L k))
        (m % Nat.descFactorial L k) (by rw [hlen2]; exact hkL)
        (by rw [hlen2]; exact Nat.mod_lt m hDpos) x htail
      exact List.eraseIdx_subset source _ this

end JsComb

namespace JsComb

theorem lehmer_nodup [Inhabited α] :
    ∀ (k : Nat) (source : List α) (m : Nat), source.Nodup → k ≤ source.length →
      m < Nat.descFactorial source.length k → (lehmer k source m).Nodup := by
  intro k
  induction k with
  | zero => intro source m hnd hk hm; exact List.nodup_nil
  | succ k ih =>
    intro source m hnd hk hm
    obtain ⟨L, hL⟩ : ∃ L, source.length = L + 1 := ⟨source.length - 1, by omega⟩
    have hkL : k ≤ L := by omega
    have hDpos : 0 < Nat.descFactorial L k := descFactorial_pos hkL
    have hq : m / Nat.descFactorial L k < L + 1 := by
      rw [Nat.div_lt_iff_lt_mul hDpos]
      rw [hL, Nat.succ_descFactorial_succ] at hm
      exact hm
    rw [show lehmer (k + 1) source m
        = source.getD (m / Nat.descFactorial (source.length - 1) k) default ::
          lehmer k (source.eraseIdx (m / Nat.descFactorial (source.length - 1) k))
            (m % Nat.descFactorial (source.length - 1) k) from rfl]
    rw [hL, Nat.add_sub_cancel]
    have hlen2 : (source.eraseIdx (m / Nat.descFactorial L k)).length = L := by
      rw [List.length_eraseIdx, hL]
      simp [hq]
    have hnd2 : (source.eraseIdx (m / Nat.descFactorial L k)).Nodup :=
      hnd.sublist (List.eraseIdx_sublist source _)
    refine List.nodup_cons.mpr ⟨fun hmem => ?_, ih _ _ hnd2 (by rw [hlen2]; exact hkL)
      (by rw [hlen2]; exact Nat.mod_lt m hDpos)⟩
    have hsub := lehmer_mem k (source.eraseIdx (m / Nat.descFactorial L k))
      (m % Nat.descFactorial L k) (by rw [hlen2]; exact hkL)
      (by rw [hlen2]; exact Nat.mod_lt m hDpos) _ hmem
    exact getD_not_mem_eraseIdx source _ hnd (by omega) hsub

theorem lehmer_inj [Inhabited α] :
    ∀ (k : Nat) (source : List α) (m1 m2 : Nat), source.Nodup → k ≤ source.length →
      m1 < Nat.descFactorial source.length k → m2 < Nat.descFactorial source.length k →
      lehmer k source m1 = lehmer k source m2 → m1 = m2 := by
  intro k
  induction k with
  | zero =>
    intro source m1 m2 hnd hk hm1 hm2 heq
    have h1 : Nat.descFactorial source.length 0 = 1 := Nat.descFactorial_zero _
    omega
  | succ k ih =>
    intro source m1 m2 hnd hk hm1 hm2 heq
    obtain ⟨L, hL⟩ : ∃ L, source.length = L + 1 := ⟨source.length - 1, by omega⟩
    have hkL : k ≤ L := by omega
    have hDpos : 0 < Nat.descFactorial L k := descFactorial_pos hkL
    have hq1 : m1 / Nat.descFactorial L k < L + 1 := by
      rw [Nat.div_lt_iff_lt_mul hDpos]
      rw [hL, Nat.succ_descFactorial_succ] at hm1
      exact hm1
    have hq2 : m2 / Nat.descFactorial L k < L + 1 := by
      rw [Nat.div_lt_iff_lt_mul hDpos]
      rw [hL, Nat.succ_descFactorial_succ] at hm2
      exact hm2
    rw [show lehmer (k + 1) source m1
        = source.getD (m1 / Nat.descFactorial (source.length - 1) k) default ::
          lehmer k (source.eraseIdx (m1 / Nat.descFactorial (source.length - 1) k))
            (m1 % Nat.descFactorial (source.length - 1) k) from rfl,
      show lehmer (k + 1) source m2
        = source.getD (m2 / Nat.descFactorial (source.length - 1) k) default ::
          lehmer k (source.eraseIdx (m2 / Nat.descFactorial (source.length - 1) k))
            (m2 % Nat.descFactorial (source.length - 1) k) from rfl] at heq
    rw [hL, Nat.add_sub_cancel] at heq
    injection heq with hhead htail
    have hq_eq : m1 / Nat.descFactorial L k = m2 / Nat.descFactorial L k := by
      rw [List.getD_eq_getElem source default (by omega),
        List.getD_eq_getElem source default (by omega)] at hhead
      exact hnd.getElem_inj_iff.mp hhead
    rw [hq_eq] at htail
    have hlen2 : (source.eraseIdx (m2 / Nat.descFactorial L k)).length = L := by
      rw [List.length_eraseIdx, hL]
      simp [hq2]
    have hnd2 : (source.eraseIdx (m2 / Nat.descFactorial L k)).Nodup :=
      hnd.sublist (List.eraseIdx_sublist source _)
    have hr : m1 % Nat.descFactorial L k = m2 % Nat.descFactorial L k :=
      ih _ _ _ hnd2 (by rw [hlen2]; exact hkL)
        (by rw [hlen2]; exact Nat.mod_lt m1 hDpos)
        (by rw [hlen2]; exact Nat.mod_lt m2 hDpos) htail
    have e1 := Nat.div_add_mod m1 (Nat.descFactorial L k)
    have e2 := Nat.div_add_mod m2 (Nat.descFactorial L k)
    rw [← e1, ← e2, hq_eq, hr]

end JsComb

namespace JsComb

theorem lehmer_surj [Inhabited α] [DecidableEq α] :
    ∀ (k : Nat) (source : List α) (l : List α), source.Nodup → k ≤ source.length →
      l.length = k → l.Nodup → (∀ x ∈ l, x ∈ source) →
      ∃ m, m < Nat.descFactorial source.length k ∧ lehmer k source m = l := by
  intro k
  induction k with
  | zero =>
    intro source l hnd hk hlen hlnd hsub
    refine ⟨0, by simp, ?_⟩
    rw [List.length_eq_zero.mp hlen]
    rfl
  | succ k ih =>
    intro source l hnd hk hlen hlnd hsub
    obtain ⟨L, hL⟩ : ∃ L, source.length = L + 1 := ⟨source.length - 1, by omega⟩
    have hkL : k ≤ L := by omega
    have hDpos : 0 < Nat.descFactorial L k := descFactorial_pos hkL
    cases l with
    | nil => exact absurd hlen (by simp)
    | cons y t =>
      have hy : y ∈ source := hsub y (List.mem_cons_self y t)
      have hq : source.indexOf y < source.length := List.indexOf_lt_length.mpr hy
      have hgetq : source.getD (source.indexOf y) default = y := by
        rw [List.getD_eq_getElem source default hq]
        exact List.getElem_indexOf hq
      have hynott : y ∉ t := (List.nodup_cons.mp hlnd).1
      have htnd : t.Nodup := (List.nodup_cons.mp hlnd).2
      have hlen2 : (source.eraseIdx (source.indexOf y)).length = L := by
        rw [List.length_eraseIdx, hL]
        simp [hL ▸ hq]
      have hnd2 : (source.eraseIdx (source.indexOf y)).Nodup :=
        hnd.sublist (List.eraseIdx_sublist source _)
      have htsub : ∀ x ∈ t, x ∈ source.eraseIdx (source.indexOf y) := by
        intro x hx
        refine mem_eraseIdx_of_ne source _ x hq (hsub x (List.mem_cons_of_mem y hx)) ?_
        rw [hgetq]
        intro hxy
        exact hynott (hxy ▸ hx)
      obtain ⟨m0, hm0, hlm0⟩ := ih (source.eraseIdx (source.indexOf y)) t hnd2
        (by rw [hlen2]; exact hkL) (by simpa using hlen) htnd htsub
      rw [hlen2] at hm0
      refine ⟨Nat.descFactorial L k * source.indexOf y + m0, ?_, ?_⟩
      · rw [hL, Nat.succ_descFactorial_succ]
        have hqL : source.indexOf y ≤ L := by omega
        calc Nat.descFactorial L k * source.indexOf y + m0
            < Nat.descFactorial L k * source.indexOf y + Nat.descFactorial L k := by omega
          _ = Nat.descFactorial L k * (source.indexOf y + 1) := by ring
          _ ≤ Nat.descFactorial L k * (L + 1) := by
              exact Nat.mul_le_mul_left _ (by omega)
          _ = (L + 1) * Nat.descFactorial L k := by ring
      · rw [show lehmer (k + 1) source (Nat.descFactorial L k * source.indexOf y + m0)
            = source.getD ((Nat.descFactorial L k * source.indexOf y + m0) /
                Nat.descFactorial (source.length - 1) k) default ::
              lehmer k (source.eraseIdx ((Nat.descFactorial L k * source.indexOf y + m0) /
                Nat.descFactorial (source.length - 1) k))
                ((Nat.descFactorial L k * source.indexOf y + m0) %
                  Nat.descFactorial (source.length - 1) k) from rfl]
        rw [hL, Nat.add_sub_cancel]
        rw [Nat.mul_add_div hDpos, Nat.div_eq_of_lt hm0, Nat.add_zero,
          Nat.mul_add_mod, Nat.mod_eq_of_lt hm0]
        rw [hgetq, hlm0]

theorem lehmer_zero [Inhabited α] :
    ∀ (k : Nat) (source : List α), k ≤ source.length → lehmer k source 0 = source.take k := by
  intro k
  induction k with
  | zero => intro source hk; rfl
  | succ k ih =>
    intro source hk
    cases source with
    | nil => exact absurd hk (by simp)
    | cons a s =>
      show (a :: s).getD (0 / Nat.descFactorial ((a :: s).length - 1) k) default ::
          lehmer k ((a :: s).eraseIdx (0 / Nat.descFactorial ((a :: s).length - 1) k))
            (0 % Nat.descFactorial ((a :: s).length - 1) k) = (a :: s).take (k + 1)
      rw [Nat.zero_div, Nat.zero_mod]
      show a :: lehmer k s 0 = a :: s.take k
      rw [ih s (by simpa using hk)]

end JsComb

namespace JsComb

theorem make_size_le (seed : List α) (size : Int) :
    (Permutation.make seed size).size ≤ seed.length := by
  simp only [Permutation.make]
  split_ifs with h
  · omega
  · exact Nat.le_refl _

theorem make_length_eq (seed : List α) (size : Int) :
    (Permutation.make seed size).length =
      Nat.descFactorial seed.length (Permutation.make seed size).size := by
  simp only [Permutation.make]
  rw [permutationVal_eq]

theorem nthRaw_eq_lehmer [Inhabited α] (seed : List α) (sz n : Nat)
    (hsz : sz ≤ seed.length) (hn : n < Nat.descFactorial seed.length sz) :
    permPick (factoradic (n * factorial (seed.length - sz)) seed.length) seed
      (seed.length - 1) (seed.length - (seed.length - sz)) = lehmer sz seed n := by
  have hsteps : seed.length - (seed.length - sz) = sz := by omega
  rw [hsteps, factorial_eq]
  rcases Nat.eq_zero_or_pos seed.length with h0 | h0
  · have hsz0 : sz = 0 := by omega
    subst hsz0
    rfl
  · rw [factoradic, if_neg (by omega)]
    exact permPick_eq_lehmer sz seed n hsz hn

theorem nth_eq_lehmer [Inhabited α] (seed : List α) (size : Int) (n : Nat)
    (hn : n < (Permutation.make seed size).length) :
    (Permutation.make seed size).nth n = lehmer (Permutation.make seed size).size seed n := by
  have hle := make_size_le seed size
  rw [make_length_eq] at hn
  exact nthRaw_eq_lehmer seed (Permutation.make seed size).size n hle hn

/-! # Claim C1 -/

/-- C1: for a `Permutation(seed, size)` whose seed entries are pairwise
distinct, over ranks `r < length`: every `nth(r)` is an ordered selection of
`size` distinct seed elements, `nth` is injective on `[0, length)`, every
such selection is reached by some rank (hence, with injectivity, the multiset
`{nth(r) : r < length}` contains each ordered selection exactly once), and
`nth(0)` returns the seed's first `size` elements in their original order. -/
theorem permutation_nth_spec [Inhabited α] [DecidableEq α] (seed : List α) (size : Int)
    (hseed : seed.Nodup) :
    (∀ r, r < (Permutation.make seed size).length →
      IsSelection seed (Permutation.make seed size).size ((Permutation.make seed size).nth r)) ∧
    (∀ r1 r2, r1 < (Permutation.make seed size).length →
      r2 < (Permutation.make seed size).length →
      (Permutation.make seed size).nth r1 = (Permutation.make seed size).nth r2 → r1 = r2) ∧
    (∀ l, IsSelection seed (Permutation.make seed size).size l →
      ∃ r, r < (Permutation.make seed size).length ∧ (Permutation.make seed size).nth r = l) ∧
    (Permutation.make seed size).nth 0 = seed.take (Permutation.make seed size).size := by
  have hle := make_size_le seed size
  have hlen := make_length_eq seed size
  refine ⟨?_, ?_, ?_, ?_⟩
  · intro r hr
    rw [nth_eq_lehmer seed size r hr]
    rw [hlen] at hr
    exact ⟨lehmer_length _ seed r, lehmer_nodup _ seed r hseed hle hr,
      lehmer_mem _ seed r hle hr⟩
  · intro r1 r2 h1 h2 heq
    rw [nth_eq_lehmer seed size r1 h1, nth_eq_lehmer seed size r2 h2] at heq
    rw [hlen] at h1 h2
    exact lehmer_inj _ seed r1 r2 hseed hle h1 h2 heq
  · intro l hl
    obtain ⟨hlth, hlnd, hlsub⟩ := hl
    obtain ⟨m, hm, hlm⟩ := lehmer_surj _ seed l hseed hle hlth hlnd hlsub
    refine ⟨m, ?_, ?_⟩
    · rw [hlen]
      exact hm
    · rw [nth_eq_lehmer seed size m (by rw [hlen]; exact hm)]
      exact hlm
  · have h0 : 0 < (Permutation.make seed size).length := by
      rw [hlen]
      exact descFactorial_pos hle
    rw [nth_eq_lehmer seed size 0 h0]
    exact lehmer_zero _ seed hle

/-- Witness for C1: `Permutation([10,20,30], 2).nth(0) = [10, 20]`. -/
theorem permutation_nth_spec_witness :
    (Permutation.make ([10, 20, 30] : List Nat) 2).nth 0 = [10, 20] :=
  (permutation_nth_spec ([10, 20, 30] : List Nat) 2 (by decide)).2.2.2

end JsComb
